import Mathlib

/-!
Verification of the redaction engine of `go-application-framework`.

The engine has two redactors:
* `SanitizeValuesByKey` — key-name-driven redaction over a parsed JSON value
  tree (the Structural Redactor),
* `SanitizeUsername` — literal-substring redaction of a user name and home
  directory from opaque text (the Literal Redactor),
plus the output workflow entry point `outputWorkflowEntryPoint`.

Byte payloads are embedded as `List Char`; the non-overlapping left-to-right
substring scan of Go's `strings.Count` / `strings.Replace` is embedded
explicitly below.
-/

namespace Redaction

/-- `isPrefixOfB pat s` is true when `pat` is a prefix of `s`
(Go `strings.HasPrefix`, spelt on character lists). -/
def isPrefixOfB : List Char → List Char → Bool
  | [], _ => true
  | _ :: _, [] => false
  | a :: as, b :: bs => a == b && isPrefixOfB as bs

/-- `containsSub pat hay` is true when `pat` occurs as a contiguous substring
of `hay` (Go `strings.Contains(hay, pat)`). -/
def containsSub (pat : List Char) : List Char → Bool
  | [] => pat.isEmpty
  | c :: rest => isPrefixOfB pat (c :: rest) || containsSub pat rest

/-- Left-to-right counting scan with a skip counter: after a match the next
`pat.length - 1` characters are inside the consumed span and are skipped. -/
def scanCount (pat : List Char) : Nat → List Char → Nat
  | _, [] => 0
  | k + 1, _ :: rest => scanCount pat k rest
  | 0, c :: rest =>
      if pat ≠ [] ∧ isPrefixOfB pat (c :: rest) = true then
        1 + scanCount pat (pat.length - 1) rest
      else
        scanCount pat 0 rest

/-- `countOcc pat s`: number of non-overlapping occurrences of `pat` in `s`,
found by a single left-to-right scan (Go `strings.Count` for a non-empty
pattern; the empty pattern is treated as matching nowhere here). -/
def countOcc (pat : List Char) (s : List Char) : Nat :=
  scanCount pat 0 s

/-- Left-to-right replacement scan with a skip counter, mirroring
`scanCount`. -/
def scanReplace (pat repl : List Char) : Nat → List Char → List Char
  | _, [] => []
  | k + 1, _ :: rest => scanReplace pat repl k rest
  | 0, c :: rest =>
      if pat ≠ [] ∧ isPrefixOfB pat (c :: rest) = true then
        repl ++ scanReplace pat repl (pat.length - 1) rest
      else
        c :: scanReplace pat repl 0 rest

/-- `replaceAll pat repl s`: replace every occurrence of `pat` in `s` by
`repl`, via a single left-to-right non-overlapping scan (Go
`strings.Replace(s, pat, repl, -1)`; the empty pattern replaces nothing). -/
def replaceAll (pat repl : List Char) (s : List Char) : List Char :=
  scanReplace pat repl 0 s

/-- Lower-casing of a string into its character list
(Go `strings.ToLower`, ASCII). -/
def lowerChars (s : String) : List Char := s.toList.map Char.toLower

/-- `Segs p s n` says that `s` decomposes, left to right, into single
characters foreign to `p` and exactly `n` verbatim blocks of `p`.  It is the
shape of a redacted payload: clean text interleaved with `n` replacement
tokens. -/
inductive Segs (p : List Char) : List Char → Nat → Prop where
  | nil : Segs p [] 0
  | clean {s : List Char} {n : Nat} (c : Char) (hc : c ∉ p) (h : Segs p s n) :
      Segs p (c :: s) n
  | block {s : List Char} {n : Nat} (h : Segs p s n) : Segs p (p ++ s) (n + 1)

/-! ## JSON value trees

The Structural Redactor parses its payload into a JSON value tree
(spec §3: object / array / scalar).  Objects keep key order and arrays keep
element order, so the tree is embedded as a mutual inductive. -/

mutual
inductive JValue : Type where
  | jstr (s : String)
  | jnum (n : Int)
  | jbool (b : Bool)
  | jnull
  | jarr (xs : JArray)
  | jobj (fs : JObject)
inductive JArray : Type where
  | anil
  | acons (v : JValue) (rest : JArray)
inductive JObject : Type where
  | onil
  | ocons (k : String) (v : JValue) (rest : JObject)
end

/-- JSON string escaping for re-serialization: quote and backslash are
escaped, all other characters emitted verbatim. -/
def escapeChar (c : Char) : List Char :=
  if c = '"' ∨ c = '\\' then ['\\', c] else [c]

def escapeList : List Char → List Char
  | [] => []
  | c :: rest => escapeChar c ++ escapeList rest

/-- Serialization of a JSON string scalar or object key, with quotes. -/
def serializeString (s : String) : List Char :=
  '"' :: (escapeList s.toList ++ ['"'])

/-- Comma emitted between consecutive array elements. -/
def arrSep : JArray → List Char
  | .anil => []
  | .acons _ _ => [',']

/-- Comma emitted between consecutive object entries. -/
def objSep : JObject → List Char
  | .onil => []
  | .ocons _ _ _ => [',']

mutual
/-- Modelled from the spec: compact re-serialization of the JSON value tree
back to bytes (spec §4.1 "re-serialized JSON bytes"); the serializer itself
is not under `src/`.  Numbers are integer numerals, which covers every
payload in the repository's tests. -/
def serializeV : JValue → List Char
  | .jstr s => serializeString s
  | .jnum n => (toString n).toList
  | .jbool b => (if b then "true" else "false").toList
  | .jnull => "null".toList
  | .jarr xs => '[' :: (serializeA xs ++ [']'])
  | .jobj fs => '{' :: (serializeO fs ++ ['}'])

def serializeA : JArray → List Char
  | .anil => []
  | .acons v rest => serializeV v ++ (arrSep rest ++ serializeA rest)

def serializeO : JObject → List Char
  | .onil => []
  | .ocons k v rest =>
      serializeString k ++ (':' :: serializeV v ++ (objSep rest ++ serializeO rest))
end

/-- Modelled from the spec: a key name matches the Filter Set when some
fragment is a case-insensitive substring of the key name (spec §3, §4.1). -/
def keyMatches (filter : List String) (key : String) : Bool :=
  filter.any fun f => containsSub (lowerChars f) (lowerChars key)

mutual
/-- Modelled from the spec: the Structural Redactor's tree walk
(spec §4.1, the implementation of `SanitizeValuesByKey` is not under
`src/`).  Every object entry whose key matches the Filter Set has its whole
value replaced by the Replacement Token as a JSON string; values under
non-matching keys are recursed into. -/
def sanitizeValue (filter : List String) (repl : String) : JValue → JValue
  | .jobj fs => .jobj (sanitizeObject filter repl fs)
  | .jarr xs => .jarr (sanitizeArray filter repl xs)
  | v => v

/-- Array elements are recursed into; scalar elements are left unchanged by
the recursion (spec §4.1: scalar strings in an array are never inspected
element-by-element, only arrays of objects have their own keys). -/
def sanitizeArray (filter : List String) (repl : String) : JArray → JArray
  | .anil => .anil
  | .acons v rest =>
      .acons (sanitizeValue filter repl v) (sanitizeArray filter repl rest)

def sanitizeObject (filter : List String) (repl : String) : JObject → JObject
  | .onil => .onil
  | .ocons k v rest =>
      .ocons k
        (if keyMatches filter k then .jstr repl else sanitizeValue filter repl v)
        (sanitizeObject filter repl rest)
end

mutual
/-- Number of replacements the Structural Redactor performs: matched keys
that are not nested inside another matched key's value (the walk replaces a
matched value wholesale and never descends into it). -/
def matchedCountV (filter : List String) : JValue → Nat
  | .jobj fs => matchedCountO filter fs
  | .jarr xs => matchedCountA filter xs
  | _ => 0

def matchedCountA (filter : List String) : JArray → Nat
  | .anil => 0
  | .acons v rest => matchedCountV filter v + matchedCountA filter rest

def matchedCountO (filter : List String) : JObject → Nat
  | .onil => 0
  | .ocons k v rest =>
      (if keyMatches filter k then 1 else matchedCountV filter v) +
        matchedCountO filter rest
end

mutual
/-- Spec-words definition for C1: the number of keys in the payload, at any
nesting depth, whose name case-insensitively contains some Filter Set
fragment — including matched keys nested inside another matched key's
value. -/
def matchedKeysAnyDepthV (filter : List String) : JValue → Nat
  | .jobj fs => matchedKeysAnyDepthO filter fs
  | .jarr xs => matchedKeysAnyDepthA filter xs
  | _ => 0

def matchedKeysAnyDepthA (filter : List String) : JArray → Nat
  | .anil => 0
  | .acons v rest =>
      matchedKeysAnyDepthV filter v + matchedKeysAnyDepthA filter rest

def matchedKeysAnyDepthO (filter : List String) : JObject → Nat
  | .onil => 0
  | .ocons k v rest =>
      (if keyMatches filter k then 1 else 0) + matchedKeysAnyDepthV filter v +
        matchedKeysAnyDepthO filter rest
end

mutual
/-- Erasure of every matched key's value (replaced by `jnull`).  Two trees
that agree after erasure differ at most at matched keys' values — the frame
of the Structural Redactor. -/
def eraseMatchedV (filter : List String) : JValue → JValue
  | .jobj fs => .jobj (eraseMatchedO filter fs)
  | .jarr xs => .jarr (eraseMatchedA filter xs)
  | v => v

def eraseMatchedA (filter : List String) : JArray → JArray
  | .anil => .anil
  | .acons v rest =>
      .acons (eraseMatchedV filter v) (eraseMatchedA filter rest)

def eraseMatchedO (filter : List String) : JObject → JObject
  | .onil => .onil
  | .ocons k v rest =>
      .ocons k (if keyMatches filter k then .jnull else eraseMatchedV filter v)
        (eraseMatchedO filter rest)
end

mutual
/-- Pointwise characterization of the sanitized tree: keys and their order
are intact, every matched key holds the Replacement Token, scalars under
non-matching keys are unchanged, and containers under non-matching keys are
recursively in the same relation. -/
def PreservesV (filter : List String) (repl : String) : JValue → JValue → Prop
  | .jstr s, w => w = .jstr s
  | .jnum n, w => w = .jnum n
  | .jbool b, w => w = .jbool b
  | .jnull, w => w = .jnull
  | .jarr xs, w =>
      match w with
      | .jarr ys => PreservesA filter repl xs ys
      | _ => False
  | .jobj fs, w =>
      match w with
      | .jobj gs => PreservesO filter repl fs gs
      | _ => False

def PreservesA (filter : List String) (repl : String) : JArray → JArray → Prop
  | .anil, w => w = .anil
  | .acons v rest, w =>
      match w with
      | .acons v' rest' =>
          PreservesV filter repl v v' ∧ PreservesA filter repl rest rest'
      | .anil => False

def PreservesO (filter : List String) (repl : String) : JObject → JObject → Prop
  | .onil, w => w = .onil
  | .ocons k v rest, w =>
      match w with
      | .ocons k' v' rest' =>
          k' = k ∧
            (if keyMatches filter k then v' = .jstr repl
             else PreservesV filter repl v v') ∧
            PreservesO filter repl rest rest'
      | .onil => False
end

/-- Test for an array whose elements are all plain scalar strings. -/
def allStringElems : JArray → Bool
  | .anil => true
  | .acons (.jstr _) rest => allStringElems rest
  | .acons _ _ => false

/-! ## The byte-level pipeline of the Structural Redactor

`SanitizeValuesByKey` decodes the payload, walks the tree and re-serializes
(spec §4.1).  The decoder below stands in for Go's `json.Unmarshal`;
"valid JSON" in the spec means exactly that decoding succeeds. -/

/-- Error kinds of the pipeline (spec §7). -/
inductive SanitizeError : Type where
  | decodeError
  | encodeError
deriving DecidableEq

def skipWs : List Char → List Char
  | [] => []
  | c :: rest =>
      if c = ' ' ∨ c = '\n' ∨ c = '\t' ∨ c = '\r' then skipWs rest else c :: rest

/-- Escape decoding inside a JSON string literal. -/
def unescape (d : Char) : Option Char :=
  if d = '"' then some '"'
  else if d = '\\' then some '\\'
  else if d = '/' then some '/'
  else if d = 'n' then some '\n'
  else if d = 't' then some '\t'
  else if d = 'r' then some '\r'
  else none

/-- Body of a JSON string literal, after the opening quote. -/
def parseStringBody (acc : List Char) : List Char → Option (String × List Char)
  | [] => none
  | '"' :: rest => some (String.mk acc.reverse, rest)
  | '\\' :: [] => none
  | '\\' :: d :: rest =>
      match unescape d with
      | some e => parseStringBody (e :: acc) rest
      | none => none
  | c :: rest => parseStringBody (c :: acc) rest

/-- Decimal digit accumulation; the flag records that at least one digit was
consumed. -/
def parseDigits (acc : Nat) (seen : Bool) : List Char → Nat × Bool × List Char
  | [] => (acc, seen, [])
  | c :: rest =>
      if c.isDigit then
        parseDigits (acc * 10 + (c.toNat - '0'.toNat)) true rest
      else
        (acc, seen, c :: rest)

def expectLit (lit : List Char) (s : List Char) : Option (List Char) :=
  if isPrefixOfB lit s then some (s.drop lit.length) else none

mutual
/-- Modelled from the spec: recursive-descent JSON decoder standing in for
Go's `json.Unmarshal` (the decoding step of `SanitizeValuesByKey` is not
under `src/`).  Fuel-driven; numbers are integer numerals and `\u` escapes
are not modelled, which covers every payload in the repository's tests. -/
def parseValue : Nat → List Char → Option (JValue × List Char)
  | 0, _ => none
  | fuel + 1, s =>
      match skipWs s with
      | [] => none
      | c :: rest =>
          if c = '"' then
            match parseStringBody [] rest with
            | some (str, r) => some (.jstr str, r)
            | none => none
          else if c = '[' then
            match skipWs rest with
            | ']' :: r => some (.jarr .anil, r)
            | _ =>
                match parseArrayElems fuel rest with
                | some (xs, r) => some (.jarr xs, r)
                | none => none
          else if c = '{' then
            match skipWs rest with
            | '}' :: r => some (.jobj .onil, r)
            | _ =>
                match parseObjectEntries fuel rest with
                | some (fs, r) => some (.jobj fs, r)
                | none => none
          else if c = 't' then
            match expectLit ('r' :: 'u' :: 'e' :: []) rest with
            | some r => some (.jbool true, r)
            | none => none
          else if c = 'f' then
            match expectLit ('a' :: 'l' :: 's' :: 'e' :: []) rest with
            | some r => some (.jbool false, r)
            | none => none
          else if c = 'n' then
            match expectLit ('u' :: 'l' :: 'l' :: []) rest with
            | some r => some (.jnull, r)
            | none => none
          else if c = '-' then
            match parseDigits 0 false rest with
            | (n, true, r) => some (.jnum (-(n : Int)), r)
            | (_, false, _) => none
          else if c.isDigit then
            match parseDigits 0 false (c :: rest) with
            | (n, true, r) => some (.jnum (n : Int), r)
            | (_, false, _) => none
          else none

def parseArrayElems : Nat → List Char → Option (JArray × List Char)
  | 0, _ => none
  | fuel + 1, s =>
      match parseValue fuel s with
      | none => none
      | some (v, r) =>
          match skipWs r with
          | ',' :: r2 =>
              match parseArrayElems fuel r2 with
              | some (xs, r3) => some (.acons v xs, r3)
              | none => none
          | ']' :: r2 => some (.acons v .anil, r2)
          | _ => none

def parseObjectEntries : Nat → List Char → Option (JObject × List Char)
  | 0, _ => none
  | fuel + 1, s =>
      match skipWs s with
      | '"' :: rest =>
          match parseStringBody [] rest with
          | none => none
          | some (k, r) =>
              match skipWs r with
              | ':' :: r2 =>
                  match parseValue fuel r2 with
                  | none => none
                  | some (v, r3) =>
                      match skipWs r3 with
                      | ',' :: r4 =>
                          match parseObjectEntries fuel r4 with
                          | some (fs, r5) => some (.ocons k v fs, r5)
                          | none => none
                      | '}' :: r4 => some (.ocons k v .onil, r4)
                      | _ => none
              | _ => none
      | _ => none
end

/-- Modelled from the spec: full-payload JSON decoding; succeeds exactly on
payloads that are a single well-formed JSON value (possibly surrounded by
whitespace). -/
def parseJson (payload : List Char) : Option JValue :=
  match parseValue (2 * payload.length + 2) payload with
  | some (t, r) => if skipWs r = [] then some t else none
  | none => none

/-- Modelled from the spec: the Structural Redactor pipeline
`Redact(filter, replacement, payload)` (spec §4.1): decode the payload —
failing with `DecodeError` and no output on invalid JSON — then replace the
value of every matched key and re-serialize. -/
def SanitizeValuesByKey (filter : List String) (repl : String)
    (payload : List Char) : Except SanitizeError (List Char) :=
  match parseJson payload with
  | none => .error .decodeError
  | some t => .ok (serializeV (sanitizeValue filter repl t))

/-- Modelled from the spec: the built-in Filter Set of key-name fragments
(spec §3; the package-level `sensitiveFieldNames` is not under `src/`). -/
def sensitiveFieldNames : List String :=
  ["password", "token", "key", "secret", "user", "username"]

/-- Modelled from the spec: the built-in Replacement Token
(spec §3 and the §8 scenario; the package-level constant is not under
`src/`). -/
def sanitize_replacement_string : String := "***"

/-! ## The Literal Redactor -/

/-- Path separators swapped to the alternate convention
(spec §4.2: backslash and forward slash exchanged). -/
def swapSeparators (s : String) : String :=
  String.mk (s.toList.map fun c =>
    if c = '\\' then '/' else if c = '/' then '\\' else c)

/-- Bare username: the portion of the raw username after its final
domain-prefix backslash (spec §3: "simple username (domain prefix
stripped)"). -/
def bareUsername (raw : String) : String :=
  String.mk (raw.toList.foldl (fun acc c => if c = '\\' then [] else acc ++ [c]) [])

/-- Modelled from the spec: the candidate literal targets of the Literal
Redactor, ordered most-specific first (spec §4.2: raw username as given,
home directory as given, home directory with separators swapped; spec §3:
the bare domain-stripped username is also a redaction target, applied last
as the least-specific candidate). -/
def identityCandidates (rawUserName homeDir : String) : List (List Char) :=
  [rawUserName.toList, homeDir.toList, (swapSeparators homeDir).toList,
    (bareUsername rawUserName).toList]

/-- One redaction pass per candidate: replace every occurrence and record
how many spans were consumed. -/
def redactPasses (repl : List Char) (acc : List Char × Nat) :
    List (List Char) → List Char × Nat
  | [] => acc
  | pat :: rest =>
      redactPasses repl (replaceAll pat repl acc.1, acc.2 + countOcc pat acc.1) rest

def sanitizeUsernameSteps (rawUserName homeDir replacement : String)
    (payload : List Char) : List Char × Nat :=
  redactPasses replacement.toList (payload, 0)
    (identityCandidates rawUserName homeDir)

/-- Modelled from the spec: the Literal Redactor
`RedactIdentity(rawUserName, homeDir, replacement, payload)` (spec §4.2, the
implementation of `SanitizeUsername` is not under `src/`).  The payload is
opaque text; every candidate occurrence is replaced by the Replacement
Token, candidates applied most-specific first.  Representing the bytes as
text cannot fail here, so no error case arises. -/
def SanitizeUsername (rawUserName homeDir replacement : String)
    (payload : List Char) : List Char :=
  (sanitizeUsernameSteps rawUserName homeDir replacement payload).1

/-- Total number of occurrence-spans consumed across the candidate passes. -/
def sanitizeUsernameCount (rawUserName homeDir replacement : String)
    (payload : List Char) : Nat :=
  (sanitizeUsernameSteps rawUserName homeDir replacement payload).2

/-! ## The output workflow (`src/pkg/local_workflows/output_workflow.go`) -/

namespace OutputWorkflow

/-- Payload of a workflow data item as seen by the entry point's type
assertions: a byte slice, a string, or anything else. -/
inductive Payload : Type where
  | bytes (s : String)
  | strval (s : String)
  | other
deriving DecidableEq

/-- Workflow data item; only the content type and payload influence the
entry point's control flow (identifier and content location feed the debug
logger only). -/
structure DataItem : Type where
  contentType : String
  payload : Payload
deriving DecidableEq

/-- Observable effects on the output destination. -/
inductive Effect : Type where
  | println (s : String)
  | removeFile (f : String)
  | writeFile (f : String) (content : String)
deriving DecidableEq

/-- Result of the entry point: a normal Go return of `(output, err)` with
the effects performed, or a panic (the unchecked `.([]byte)` assertion in
the JSON branch), after which nothing is returned. -/
inductive Outcome : Type where
  | ret (output : List DataItem) (err : Option String) (trace : List Effect)
  | panicked (trace : List Effect)
deriving DecidableEq

def prependTrace (t : List Effect) : Outcome → Outcome
  | .ret o e tr => .ret o e (t ++ tr)
  | .panicked tr => .panicked (t ++ tr)

/-- Loop body of `outputWorkflowEntryPoint` (output_workflow.go lines
45-88), one constructor per iteration.  `printJsonToCmd` is threaded as
state because the Go code mutates the local variable inside the loop. -/
def processItems (printJsonToCmd : Bool) (writeJsonToFile : String) :
    List DataItem → Outcome
  | [] => .ret [] none []
  | d :: rest =>
      if containsSub ('j' :: 's' :: 'o' :: 'n' :: []) d.contentType.toList then
        match d.payload with
        | .bytes s =>
            let pj := if printJsonToCmd = false ∧ writeJsonToFile.length = 0
              then true else printJsonToCmd
            let t1 : List Effect := if pj then [.println s] else []
            let t2 : List Effect :=
              if writeJsonToFile.length > 0 then
                [.removeFile writeJsonToFile, .writeFile writeJsonToFile s]
              else []
            prependTrace (t1 ++ t2) (processItems pj writeJsonToFile rest)
        | _ => .panicked []
      else
        match d.payload with
        | .bytes s =>
            prependTrace [.println s] (processItems printJsonToCmd writeJsonToFile rest)
        | .strval s =>
            prependTrace [.println s] (processItems printJsonToCmd writeJsonToFile rest)
        | .other =>
            .ret [] (some ("Unsupported output type: " ++ d.contentType)) []

/-- Entry point `outputWorkflowEntryPoint`: reads the `json` and
`json-file-output` configuration values and processes the input items in
order.  The Go function initializes `output` to the empty slice and never
appends to it. -/
def outputWorkflowEntryPoint (printJsonToCmd : Bool) (writeJsonToFile : String)
    (input : List DataItem) : Outcome :=
  processItems printJsonToCmd writeJsonToFile input

end OutputWorkflow

/-! ## Concrete inputs from the specification scenarios and the tests -/

/-- The §8 scenario input `\x7b"password":"#er+aVnqOjnyTtzn-snyk","Other":"public"\x7d`. -/
def scenarioInput : JValue :=
  .jobj (.ocons "password" (.jstr "#er+aVnqOjnyTtzn-snyk")
    (.ocons "Other" (.jstr "public") .onil))

/-- A payload with a matched key nested inside another matched key's value. -/
def nestedMatchedInput : JValue :=
  .jobj (.ocons "password" (.jobj (.ocons "password" (.jstr "x") .onil)) .onil)

/-- A payload whose matched value also occurs under a non-matching key. -/
def duplicatedValueInput : JValue :=
  .jobj (.ocons "password" (.jstr "x") (.ocons "Other" (.jstr "x") .onil))

/-- The `Test_SanitizeValuesByKey` input: the test struct with its seven
secret values, exactly as Go's `json.Marshal` renders it (field order:
`password`, `JenkinsPassword`, `PrivateKeySecret`, `SecretNumber`,
`TotallyPublicValue`, `Args`). -/
def testInput : JValue :=
  .jobj (
    .ocons "password" (.jstr "#er+aVnqOjnyTtzn-snyk") (
    .ocons "JenkinsPassword" (.jstr "mypassword") (
    .ocons "PrivateKeySecret" (.jstr "123") (
    .ocons "SecretNumber" (.jnum 987654) (
    .ocons "TotallyPublicValue" (.jbool false) (
    .ocons "Args" (.jarr (
      .acons (.jstr "--some-username=Patch") (
      .acons (.jstr "password=DogsRule") (
      .acons (.jstr "--something=else") (
      .acons (.jstr "--mytokenvalue") (
      .acons (.jstr "CatsDont") (
      .acons (.jstr "--mykey=MiceAreOk") .anil))))))) .onil))))))

/-- Output bytes of the Structural Redactor at the test input, under the
built-in Filter Set and Replacement Token. -/
def testOutput : List Char :=
  serializeV (sanitizeValue sensitiveFieldNames sanitize_replacement_string
    testInput)

/-! ## Lemmas about the substring scan -/

theorem Segs.append {p s₁ s₂ : List Char} {n₁ n₂ : Nat}
    (h₁ : Segs p s₁ n₁) (h₂ : Segs p s₂ n₂) : Segs p (s₁ ++ s₂) (n₁ + n₂) := by
  induction h₁ with
  | nil => simpa using h₂
  | clean c hc _ ih => exact .clean c hc ih
  | block _ ih =>
      rw [List.append_assoc]
      have h := Segs.block (p := p) ih
      rwa [Nat.add_right_comm] at h

/-- A string with no character of `p` is a single clean segment. -/
theorem Segs.of_clean {p s : List Char} (h : ∀ c ∈ s, c ∉ p) : Segs p s 0 := by
  induction s with
  | nil => exact .nil
  | cons c rest ih =>
      exact .clean c (h c (List.mem_cons_self c rest))
        (ih fun d hd => h d (List.mem_cons_of_mem c hd))

/-- The skip counter discards exactly the characters a `drop` would. -/
theorem scanCount_skip (pat : List Char) :
    ∀ (s : List Char) (k : Nat), scanCount pat k s = countOcc pat (s.drop k) := by
  intro s
  induction s with
  | nil =>
      intro k
      rw [List.drop_nil]
      cases k <;> rfl
  | cons c rest ih =>
      intro k
      cases k with
      | zero => rfl
      | succ k2 =>
          show scanCount pat k2 rest = countOcc pat ((c :: rest).drop (k2 + 1))
          rw [List.drop_succ_cons]
          exact ih k2

theorem scanReplace_skip (pat repl : List Char) :
    ∀ (s : List Char) (k : Nat),
      scanReplace pat repl k s = replaceAll pat repl (s.drop k) := by
  intro s
  induction s with
  | nil =>
      intro k
      rw [List.drop_nil]
      cases k <;> rfl
  | cons c rest ih =>
      intro k
      cases k with
      | zero => rfl
      | succ k2 =>
          show scanReplace pat repl k2 rest =
            replaceAll pat repl ((c :: rest).drop (k2 + 1))
          rw [List.drop_succ_cons]
          exact ih k2

theorem countOcc_nil (pat : List Char) : countOcc pat [] = 0 := rfl

theorem countOcc_cons (pat : List Char) (c : Char) (s : List Char) :
    countOcc pat (c :: s) =
      if pat ≠ [] ∧ isPrefixOfB pat (c :: s) = true then
        1 + countOcc pat (s.drop (pat.length - 1))
      else countOcc pat s := by
  show scanCount pat 0 (c :: s) = _
  rw [scanCount, scanCount_skip pat s (pat.length - 1)]
  rfl

theorem replaceAll_nil (pat repl : List Char) : replaceAll pat repl [] = [] := rfl

theorem replaceAll_cons (pat repl : List Char) (c : Char) (s : List Char) :
    replaceAll pat repl (c :: s) =
      if pat ≠ [] ∧ isPrefixOfB pat (c :: s) = true then
        repl ++ replaceAll pat repl (s.drop (pat.length - 1))
      else c :: replaceAll pat repl s := by
  show scanReplace pat repl 0 (c :: s) = _
  rw [scanReplace, scanReplace_skip pat repl s (pat.length - 1)]
  rfl

theorem isPrefixOfB_append (p s : List Char) : isPrefixOfB p (p ++ s) = true := by
  induction p with
  | nil => rfl
  | cons a as ih => simpa [isPrefixOfB] using ih

theorem containsSub_nil_pat (s : List Char) : containsSub [] s = true := by
  cases s <;> simp [containsSub, isPrefixOfB]

/-- A match of a non-empty pattern cannot start on a character outside the
pattern. -/
theorem isPrefixOfB_head_mem {pat : List Char} (hpat : pat ≠ []) {c : Char}
    {s : List Char} (h : isPrefixOfB pat (c :: s) = true) : c ∈ pat := by
  obtain ⟨p0, ps, rfl⟩ := List.exists_cons_of_ne_nil hpat
  simp only [isPrefixOfB, Bool.and_eq_true, beq_iff_eq] at h
  exact List.mem_cons.2 (Or.inl h.1.symm)

theorem Segs.cast {p : List Char} {s : List Char} {m m' : Nat}
    (h : Segs p s m) (e : m = m') : Segs p s m' := e ▸ h

theorem countOcc_segs {p s : List Char} {n : Nat} (hp : p ≠ [])
    (h : Segs p s n) : countOcc p s = n := by
  induction h with
  | nil => exact countOcc_nil p
  | clean c hc _ ih =>
      rw [countOcc_cons, if_neg, ih]
      rintro ⟨-, hpre⟩
      exact hc (isPrefixOfB_head_mem hp hpre)
  | block h ih =>
      rename_i s2 n2
      obtain ⟨p0, ps, rfl⟩ := List.exists_cons_of_ne_nil hp
      rw [List.cons_append, countOcc_cons, if_pos]
      · have hd : (ps ++ s2).drop ((p0 :: ps).length - 1) = s2 := by
          simp only [List.length_cons, Nat.add_sub_cancel]
          exact List.drop_left ps s2
        rw [hd, ih]
        omega
      · exact ⟨hp, by rw [← List.cons_append]; exact isPrefixOfB_append _ _⟩

/-- Dropping a prefix made of characters foreign to `p` removes no block. -/
theorem Segs.drop_prefix {p : List Char} (hp : p ≠ []) :
    ∀ (q s : List Char) (n : Nat), Segs p s n → isPrefixOfB q s = true →
      (∀ c ∈ q, c ∉ p) → Segs p (s.drop q.length) n := by
  intro q
  induction q with
  | nil =>
      intro s n hs _ _
      simpa using hs
  | cons a q' ih =>
      intro s n hs hpre hq
      cases hs with
      | nil => simp [isPrefixOfB] at hpre
      | clean c hc h =>
          simp only [isPrefixOfB, Bool.and_eq_true, beq_iff_eq] at hpre
          rw [List.length_cons, List.drop_succ_cons]
          exact ih _ _ h hpre.2 fun d hd => hq d (List.mem_cons_of_mem a hd)
      | block h =>
          obtain ⟨p0, ps, hpp⟩ := List.exists_cons_of_ne_nil hp
          rw [hpp, List.cons_append] at hpre
          simp only [isPrefixOfB, Bool.and_eq_true, beq_iff_eq] at hpre
          exact absurd (hpp ▸ List.mem_cons.2 (Or.inl hpre.1))
            (hq a (List.mem_cons_self a q'))

/-- The scan never starts a match on characters foreign to the pattern, so
such a prefix passes through `replaceAll` verbatim. -/
theorem replaceAll_append_disjoint {pat repl : List Char} :
    ∀ (r : List Char), (∀ c ∈ r, c ∉ pat) → ∀ (s : List Char),
      replaceAll pat repl (r ++ s) = r ++ replaceAll pat repl s := by
  intro r
  induction r with
  | nil => intro _ s; rfl
  | cons a r' ih =>
      intro hr s
      have hguard : ¬(pat ≠ [] ∧ isPrefixOfB pat (a :: (r' ++ s)) = true) := by
        rintro ⟨hne, hpre⟩
        exact hr a (List.mem_cons_self a r') (isPrefixOfB_head_mem hne hpre)
      rw [List.cons_append, replaceAll_cons, if_neg hguard,
        ih (fun d hd => hr d (List.mem_cons_of_mem a hd)) s]
      rfl

theorem countOcc_append_disjoint {pat : List Char} :
    ∀ (r : List Char), (∀ c ∈ r, c ∉ pat) → ∀ (s : List Char),
      countOcc pat (r ++ s) = countOcc pat s := by
  intro r
  induction r with
  | nil => intro _ s; rfl
  | cons a r' ih =>
      intro hr s
      have hguard : ¬(pat ≠ [] ∧ isPrefixOfB pat (a :: (r' ++ s)) = true) := by
        rintro ⟨hne, hpre⟩
        exact hr a (List.mem_cons_self a r') (isPrefixOfB_head_mem hne hpre)
      rw [List.cons_append, countOcc_cons, if_neg hguard,
        ih (fun d hd => hr d (List.mem_cons_of_mem a hd)) s]

/-- An empty string holds no token block. -/
theorem Segs.eq_zero_of_nil {p : List Char} (hp : p ≠ []) {s : List Char}
    {n : Nat} (h : Segs p s n) (hs : s = []) : n = 0 := by
  induction h with
  | nil => rfl
  | clean c hc h ih => simp at hs
  | block h ih => exact absurd (List.append_eq_nil.1 hs).1 hp

/-- Core counting lemma: one `replaceAll` pass over a token-segmented string
adds exactly its scan count to the number of token blocks, provided the
token is non-empty and shares no character with the pattern. -/
theorem segs_replaceAll_aux {repl pat : List Char} (hrepl : repl ≠ [])
    (hdisj : ∀ c ∈ pat, c ∉ repl) :
    ∀ (m : Nat) (s : List Char), s.length ≤ m → ∀ (n : Nat), Segs repl s n →
      Segs repl (replaceAll pat repl s) (n + countOcc pat s) := by
  intro m
  induction m with
  | zero =>
      intro s hlen n hs
      have hnil : s = [] := List.eq_nil_of_length_eq_zero (Nat.le_zero.1 hlen)
      subst hnil
      obtain rfl : n = 0 := hs.eq_zero_of_nil hrepl rfl
      rw [replaceAll_nil, countOcc_nil]
      exact Segs.nil
  | succ m ih =>
      intro s hlen n hs
      cases hs with
      | nil =>
          rw [replaceAll_nil, countOcc_nil]
          exact Segs.nil
      | clean c hc h =>
          rename_i s'
          by_cases hm : pat ≠ [] ∧ isPrefixOfB pat (c :: s') = true
          · rw [replaceAll_cons, if_pos hm, countOcc_cons, if_pos hm]
            have hdrop : Segs repl ((c :: s').drop pat.length) n :=
              Segs.drop_prefix hrepl pat (c :: s') n (Segs.clean c hc h)
                hm.2 hdisj
            have heq : (c :: s').drop pat.length = s'.drop (pat.length - 1) := by
              obtain ⟨p0, ps, rfl⟩ := List.exists_cons_of_ne_nil hm.1
              simp [List.drop_succ_cons]
            rw [heq] at hdrop
            have hlen2 : (s'.drop (pat.length - 1)).length ≤ m := by
              have := List.length_drop (pat.length - 1) s'
              simp only [List.length_cons] at hlen
              omega
            have hx := ih _ hlen2 n hdrop
            exact (Segs.block hx).cast (by omega)
          · rw [replaceAll_cons, if_neg hm, countOcc_cons, if_neg hm]
            have hlen2 : s'.length ≤ m := by
              simp only [List.length_cons] at hlen; omega
            exact Segs.clean c hc (ih _ hlen2 n h)
      | block h =>
          rename_i s' n'
          have hflip : ∀ c ∈ repl, c ∉ pat := fun c hcr hcp => hdisj c hcp hcr
          rw [replaceAll_append_disjoint repl hflip,
            countOcc_append_disjoint repl hflip]
          have hlen2 : s'.length ≤ m := by
            obtain ⟨r0, rs, rfl⟩ := List.exists_cons_of_ne_nil hrepl
            simp only [List.cons_append, List.length_cons, List.length_append] at hlen
            omega
          have hx := ih _ hlen2 n' h
          exact (Segs.block hx).cast (by omega)

theorem segs_replaceAll {repl pat s : List Char} {n : Nat} (hrepl : repl ≠ [])
    (hdisj : ∀ c ∈ pat, c ∉ repl) (hs : Segs repl s n) :
    Segs repl (replaceAll pat repl s) (n + countOcc pat s) :=
  segs_replaceAll_aux hrepl hdisj s.length s (Nat.le_refl _) n hs

/-- A prefix made of characters foreign to the (non-empty) replacement
survives `replaceAll` only if it was already a prefix of the input. -/
theorem isPrefixOfB_replaceAll {repl pat : List Char} (hrepl : repl ≠ []) :
    ∀ (q s : List Char), (∀ c ∈ q, c ∉ repl) →
      isPrefixOfB q (replaceAll pat repl s) = true → isPrefixOfB q s = true := by
  intro q
  induction q with
  | nil => intro s _ _; rfl
  | cons a q' ih =>
      intro s hq hpre
      cases s with
      | nil => rw [replaceAll_nil] at hpre; exact absurd hpre (by simp [isPrefixOfB])
      | cons c s' =>
          by_cases hm : pat ≠ [] ∧ isPrefixOfB pat (c :: s') = true
          · rw [replaceAll_cons, if_pos hm] at hpre
            obtain ⟨r0, rs, hre⟩ := List.exists_cons_of_ne_nil hrepl
            rw [hre, List.cons_append] at hpre
            simp only [isPrefixOfB, Bool.and_eq_true, beq_iff_eq] at hpre
            exact absurd (hre ▸ List.mem_cons.2 (Or.inl hpre.1))
              (hq a (List.mem_cons_self a q'))
          · rw [replaceAll_cons, if_neg hm] at hpre
            simp only [isPrefixOfB, Bool.and_eq_true, beq_iff_eq] at hpre ⊢
            exact ⟨hpre.1,
              ih s' (fun d hd => hq d (List.mem_cons_of_mem a hd)) hpre.2⟩

/-- Occurrences cannot intersect a leading run of characters foreign to the
pattern. -/
theorem containsSub_append_disjoint {pat : List Char} :
    ∀ (r : List Char), (∀ c ∈ r, c ∉ pat) → ∀ (s : List Char),
      containsSub pat (r ++ s) = containsSub pat s := by
  cases pat with
  | nil => intro r _ s; rw [containsSub_nil_pat, containsSub_nil_pat]
  | cons p0 ps =>
      intro r
      induction r with
      | nil => intro _ s; rfl
      | cons a r' ih =>
          intro hr s
          rw [List.cons_append]
          show (isPrefixOfB (p0 :: ps) (a :: (r' ++ s)) ||
            containsSub (p0 :: ps) (r' ++ s)) = _
          have hpre : isPrefixOfB (p0 :: ps) (a :: (r' ++ s)) = false := by
            cases hb : isPrefixOfB (p0 :: ps) (a :: (r' ++ s)) with
            | false => rfl
            | true =>
                exact absurd (isPrefixOfB_head_mem (List.cons_ne_nil p0 ps) hb)
                  (hr a (List.mem_cons_self a r'))
          rw [hpre, Bool.false_or,
            ih (fun d hd => hr d (List.mem_cons_of_mem a hd)) s]

theorem containsSub_cons_false {pat : List Char} {c : Char} {s : List Char}
    (h : containsSub pat (c :: s) = false) :
    isPrefixOfB pat (c :: s) = false ∧ containsSub pat s = false := by
  simpa [containsSub, Bool.or_eq_false_iff] using h

theorem containsSub_nil_of_ne {pat : List Char} (hpat : pat ≠ []) :
    containsSub pat [] = false := by
  cases pat with
  | nil => exact absurd rfl hpat
  | cons p0 ps => rfl

/-- Absence of the pattern is inherited by suffixes. -/
theorem containsSub_drop {pat : List Char} :
    ∀ (k : Nat) (s : List Char), containsSub pat s = false →
      containsSub pat (s.drop k) = false := by
  intro k
  induction k with
  | zero => intro s h; simpa using h
  | succ k ih =>
      intro s h
      cases s with
      | nil => simpa using h
      | cons c s' =>
          rw [List.drop_succ_cons]
          exact ih s' (containsSub_cons_false h).2

/-- After replacing a pattern by a non-empty token that shares no character
with it, the pattern no longer occurs. -/
theorem containsSub_replaceAll_self_aux {repl pat : List Char} (hrepl : repl ≠ [])
    (hpat : pat ≠ []) (hdisj : ∀ c ∈ pat, c ∉ repl) :
    ∀ (m : Nat) (s : List Char), s.length ≤ m →
      containsSub pat (replaceAll pat repl s) = false := by
  intro m
  induction m with
  | zero =>
      intro s hlen
      have hnil : s = [] := List.eq_nil_of_length_eq_zero (Nat.le_zero.1 hlen)
      subst hnil
      rw [replaceAll_nil]
      exact containsSub_nil_of_ne hpat
  | succ m ih =>
      intro s hlen
      cases s with
      | nil => rw [replaceAll_nil]; exact containsSub_nil_of_ne hpat
      | cons c s' =>
          by_cases hm : pat ≠ [] ∧ isPrefixOfB pat (c :: s') = true
          · rw [replaceAll_cons, if_pos hm,
              containsSub_append_disjoint repl (fun d hd hp => hdisj d hp hd)]
            apply ih
            have := List.length_drop (pat.length - 1) s'
            simp only [List.length_cons] at hlen
            omega
          · rw [replaceAll_cons, if_neg hm]
            show (isPrefixOfB pat (c :: replaceAll pat repl s') ||
              containsSub pat (replaceAll pat repl s')) = false
            have h2 : containsSub pat (replaceAll pat repl s') = false :=
              ih s' (by simp only [List.length_cons] at hlen; omega)
            have h1 : isPrefixOfB pat (c :: replaceAll pat repl s') = false := by
              cases hb : isPrefixOfB pat (c :: replaceAll pat repl s') with
              | false => rfl
              | true =>
                  obtain ⟨p0, ps, rfl⟩ := List.exists_cons_of_ne_nil hpat
                  simp only [isPrefixOfB, Bool.and_eq_true, beq_iff_eq] at hb
                  have hps : isPrefixOfB ps s' = true :=
                    isPrefixOfB_replaceAll hrepl ps s'
                      (fun d hd => hdisj d (List.mem_cons_of_mem p0 hd)) hb.2
                  exact absurd ⟨hpat, by simp [isPrefixOfB, hb.1, hps]⟩ hm
            rw [h1, h2]
            rfl

theorem containsSub_replaceAll_self {repl pat s : List Char} (hrepl : repl ≠ [])
    (hpat : pat ≠ []) (hdisj : ∀ c ∈ pat, c ∉ repl) :
    containsSub pat (replaceAll pat repl s) = false :=
  containsSub_replaceAll_self_aux hrepl hpat hdisj s.length s (Nat.le_refl _)

/-- A pattern absent from the input stays absent through a replacement pass
for any other pattern, when the inserted token is non-empty and shares no
character with it. -/
theorem containsSub_replaceAll_other_aux {repl pat pat' : List Char}
    (hrepl : repl ≠ []) (hdisj : ∀ c ∈ pat, c ∉ repl) :
    ∀ (m : Nat) (s : List Char), s.length ≤ m → containsSub pat s = false →
      containsSub pat (replaceAll pat' repl s) = false := by
  intro m
  induction m with
  | zero =>
      intro s hlen hc
      have hnil : s = [] := List.eq_nil_of_length_eq_zero (Nat.le_zero.1 hlen)
      subst hnil
      rwa [replaceAll_nil]
  | succ m ih =>
      intro s hlen hc
      cases s with
      | nil => rwa [replaceAll_nil]
      | cons c s' =>
          obtain ⟨hc1, hc2⟩ := containsSub_cons_false hc
          have hpatne : pat ≠ [] := by
            rintro rfl
            simp [containsSub_nil_pat] at hc
          by_cases hm : pat' ≠ [] ∧ isPrefixOfB pat' (c :: s') = true
          · rw [replaceAll_cons, if_pos hm,
              containsSub_append_disjoint repl (fun d hd hp => hdisj d hp hd)]
            apply ih _ _ (containsSub_drop (pat'.length - 1) s' hc2)
            have := List.length_drop (pat'.length - 1) s'
            simp only [List.length_cons] at hlen
            omega
          · rw [replaceAll_cons, if_neg hm]
            show (isPrefixOfB pat (c :: replaceAll pat' repl s') ||
              containsSub pat (replaceAll pat' repl s')) = false
            have h2 : containsSub pat (replaceAll pat' repl s') = false :=
              ih s' (by simp only [List.length_cons] at hlen; omega) hc2
            have h1 : isPrefixOfB pat (c :: replaceAll pat' repl s') = false := by
              cases hb : isPrefixOfB pat (c :: replaceAll pat' repl s') with
              | false => rfl
              | true =>
                  obtain ⟨p0, ps, rfl⟩ := List.exists_cons_of_ne_nil hpatne
                  simp only [isPrefixOfB, Bool.and_eq_true, beq_iff_eq] at hb
                  have hps : isPrefixOfB ps s' = true :=
                    isPrefixOfB_replaceAll hrepl ps s'
                      (fun d hd => hdisj d (List.mem_cons_of_mem p0 hd)) hb.2
                  simp [isPrefixOfB, hb.1, hps] at hc1
            rw [h1, h2]
            rfl

theorem containsSub_replaceAll_other {repl pat pat' s : List Char}
    (hrepl : repl ≠ []) (hdisj : ∀ c ∈ pat, c ∉ repl)
    (hc : containsSub pat s = false) :
    containsSub pat (replaceAll pat' repl s) = false :=
  containsSub_replaceAll_other_aux hrepl hdisj s.length s (Nat.le_refl _) hc

/-! ## Token counting through the serializer -/

theorem flip_disjoint {p s : List Char} (h : ∀ c ∈ p, c ∉ s) :
    ∀ c ∈ s, c ∉ p :=
  fun c hcs hcp => h c hcp hcs

theorem escapeList_id : ∀ {l : List Char}, '"' ∉ l → '\\' ∉ l →
    escapeList l = l := by
  intro l
  induction l with
  | nil => intro _ _; rfl
  | cons c rest ih =>
      intro hq hb
      have h1 : ¬(c = '"' ∨ c = '\\') := by
        rintro (rfl | rfl)
        · exact hq (List.mem_cons_self _ _)
        · exact hb (List.mem_cons_self _ _)
      rw [escapeList, escapeChar, if_neg h1,
        ih (fun h => hq (List.mem_cons_of_mem _ h))
          (fun h => hb (List.mem_cons_of_mem _ h))]
      rfl

theorem arrSep_sanitize (filter : List String) (R : String) (xs : JArray) :
    arrSep (sanitizeArray filter R xs) = arrSep xs := by
  cases xs with
  | anil => rw [sanitizeArray]
  | acons v rest => rw [sanitizeArray]; rfl

theorem objSep_sanitize (filter : List String) (R : String) (fs : JObject) :
    objSep (sanitizeObject filter R fs) = objSep fs := by
  cases fs with
  | onil => rw [sanitizeObject]
  | ocons k v rest => rw [sanitizeObject]; rfl

/-- The serialized Replacement Token value contributes exactly one token
block. -/
theorem segs_token_value {R : String} (hq : '"' ∉ R.toList)
    (hb : '\\' ∉ R.toList) :
    Segs R.toList (serializeV (.jstr R)) 1 := by
  rw [serializeV, serializeString, escapeList_id hq hb]
  refine Segs.clean '"' hq ?_
  exact Segs.block (Segs.of_clean (fun c hc => by
    simp only [List.mem_singleton] at hc
    subst hc
    exact hq))

mutual
/-- Serialization of the sanitized tree decomposes into characters of the
original serialization and exactly `matchedCountV` Replacement Token
blocks, provided the token is non-empty, quote- and backslash-free, and
shares no character with the serialized input. -/
theorem segsSerializeV (filter : List String) (R : String) (t : JValue)
    (hne : R.toList ≠ []) (hq : '"' ∉ R.toList) (hb : '\\' ∉ R.toList)
    (hdisj : ∀ c ∈ R.toList, c ∉ serializeV t) :
    Segs R.toList (serializeV (sanitizeValue filter R t))
      (matchedCountV filter t) := by
  cases t with
  | jstr s =>
      have e1 : sanitizeValue filter R (JValue.jstr s) = JValue.jstr s := rfl
      have e2 : matchedCountV filter (JValue.jstr s) = 0 := rfl
      rw [e1, e2]
      exact Segs.of_clean (flip_disjoint hdisj)
  | jnum n =>
      have e1 : sanitizeValue filter R (JValue.jnum n) = JValue.jnum n := rfl
      have e2 : matchedCountV filter (JValue.jnum n) = 0 := rfl
      rw [e1, e2]
      exact Segs.of_clean (flip_disjoint hdisj)
  | jbool bv =>
      have e1 : sanitizeValue filter R (JValue.jbool bv) = JValue.jbool bv := rfl
      have e2 : matchedCountV filter (JValue.jbool bv) = 0 := rfl
      rw [e1, e2]
      exact Segs.of_clean (flip_disjoint hdisj)
  | jnull =>
      have e1 : sanitizeValue filter R JValue.jnull = JValue.jnull := rfl
      have e2 : matchedCountV filter JValue.jnull = 0 := rfl
      rw [e1, e2]
      exact Segs.of_clean (flip_disjoint hdisj)
  | jarr xs =>
      rw [sanitizeValue, matchedCountV, serializeV]
      have hLB : '[' ∉ R.toList := fun hmem =>
        hdisj '[' hmem (by rw [serializeV]; exact List.mem_cons_self _ _)
      have hRB : ']' ∉ R.toList := fun hmem =>
        hdisj ']' hmem (by
          rw [serializeV]
          exact List.mem_cons_of_mem _
            (List.mem_append_right _ (List.mem_singleton.2 rfl)))
      have hdisj' : ∀ c ∈ R.toList, c ∉ serializeA xs := fun c hc hmem =>
        hdisj c hc (by
          rw [serializeV]
          exact List.mem_cons_of_mem _ (List.mem_append_left _ hmem))
      have hbody := segsSerializeA filter R xs hne hq hb hdisj'
      have hclose : Segs R.toList [']'] 0 := Segs.of_clean (fun c hc => by
        simp only [List.mem_singleton] at hc
        subst hc
        exact hRB)
      exact Segs.clean '[' hLB ((hbody.append hclose).cast (by omega))
  | jobj fs =>
      rw [sanitizeValue, matchedCountV, serializeV]
      have hLB : '{' ∉ R.toList := fun hmem =>
        hdisj '{' hmem (by rw [serializeV]; exact List.mem_cons_self _ _)
      have hRB : '}' ∉ R.toList := fun hmem =>
        hdisj '}' hmem (by
          rw [serializeV]
          exact List.mem_cons_of_mem _
            (List.mem_append_right _ (List.mem_singleton.2 rfl)))
      have hdisj' : ∀ c ∈ R.toList, c ∉ serializeO fs := fun c hc hmem =>
        hdisj c hc (by
          rw [serializeV]
          exact List.mem_cons_of_mem _ (List.mem_append_left _ hmem))
      have hbody := segsSerializeO filter R fs hne hq hb hdisj'
      have hclose : Segs R.toList ['}'] 0 := Segs.of_clean (fun c hc => by
        simp only [List.mem_singleton] at hc
        subst hc
        exact hRB)
      exact Segs.clean '{' hLB ((hbody.append hclose).cast (by omega))

theorem segsSerializeA (filter : List String) (R : String) (xs : JArray)
    (hne : R.toList ≠ []) (hq : '"' ∉ R.toList) (hb : '\\' ∉ R.toList)
    (hdisj : ∀ c ∈ R.toList, c ∉ serializeA xs) :
    Segs R.toList (serializeA (sanitizeArray filter R xs))
      (matchedCountA filter xs) := by
  cases xs with
  | anil =>
      rw [sanitizeArray, matchedCountA, serializeA]
      exact Segs.nil
  | acons v rest =>
      rw [sanitizeArray, matchedCountA, serializeA,
        arrSep_sanitize filter R rest]
      have hdv : ∀ c ∈ R.toList, c ∉ serializeV v := fun c hc hmem =>
        hdisj c hc (by rw [serializeA]; exact List.mem_append_left _ hmem)
      have hdr : ∀ c ∈ R.toList, c ∉ serializeA rest := fun c hc hmem =>
        hdisj c hc (by
          rw [serializeA]
          exact List.mem_append_right _ (List.mem_append_right _ hmem))
      have hsep : Segs R.toList (arrSep rest) 0 := by
        cases rest with
        | anil => exact Segs.nil
        | acons w ws =>
            refine Segs.of_clean fun c hcm => ?_
            simp only [arrSep, List.mem_singleton] at hcm
            subst hcm
            intro hmem
            exact hdisj ',' hmem (by
              rw [serializeA]
              exact List.mem_append_right _
                (List.mem_append_left _ (List.mem_singleton.2 rfl)))
      have hv := segsSerializeV filter R v hne hq hb hdv
      have hrest := segsSerializeA filter R rest hne hq hb hdr
      exact (hv.append (hsep.append hrest)).cast (by omega)

theorem segsSerializeO (filter : List String) (R : String) (fs : JObject)
    (hne : R.toList ≠ []) (hq : '"' ∉ R.toList) (hb : '\\' ∉ R.toList)
    (hdisj : ∀ c ∈ R.toList, c ∉ serializeO fs) :
    Segs R.toList (serializeO (sanitizeObject filter R fs))
      (matchedCountO filter fs) := by
  cases fs with
  | onil =>
      rw [sanitizeObject, matchedCountO, serializeO]
      exact Segs.nil
  | ocons k v rest =>
      rw [sanitizeObject, matchedCountO, serializeO,
        objSep_sanitize filter R rest]
      have hdk : ∀ c ∈ R.toList, c ∉ serializeString k := fun c hc hmem =>
        hdisj c hc (by rw [serializeO]; exact List.mem_append_left _ hmem)
      have hcolon : ':' ∉ R.toList := fun hmem =>
        hdisj ':' hmem (by
          rw [serializeO]
          exact List.mem_append_right _ (List.mem_cons_self _ _))
      have hdv : ∀ c ∈ R.toList, c ∉ serializeV v := fun c hc hmem =>
        hdisj c hc (by
          rw [serializeO]
          exact List.mem_append_right _
            (List.mem_cons_of_mem _ (List.mem_append_left _ hmem)))
      have hdr : ∀ c ∈ R.toList, c ∉ serializeO rest := fun c hc hmem =>
        hdisj c hc (by
          rw [serializeO]
          exact List.mem_append_right _ (List.mem_cons_of_mem _
            (List.mem_append_right _ (List.mem_append_right _ hmem))))
      have hk : Segs R.toList (serializeString k) 0 :=
        Segs.of_clean (flip_disjoint hdk)
      have hsep : Segs R.toList (objSep rest) 0 := by
        cases rest with
        | onil => exact Segs.nil
        | ocons k2 v2 ws =>
            refine Segs.of_clean fun c hcm => ?_
            simp only [objSep, List.mem_singleton] at hcm
            subst hcm
            intro hmem
            exact hdisj ',' hmem (by
              rw [serializeO]
              exact List.mem_append_right _ (List.mem_cons_of_mem _
                (List.mem_append_right _
                  (List.mem_append_left _ (List.mem_singleton.2 rfl)))))
      have hrest := segsSerializeO filter R rest hne hq hb hdr
      by_cases hmatch : keyMatches filter k = true
      · rw [if_pos hmatch, if_pos hmatch]
        have hv : Segs R.toList (serializeV (.jstr R)) 1 :=
          segs_token_value hq hb
        exact (hk.append (Segs.clean ':' hcolon
          (hv.append (hsep.append hrest)))).cast (by omega)
      · rw [if_neg hmatch, if_neg hmatch]
        have hv := segsSerializeV filter R v hne hq hb hdv
        exact (hk.append (Segs.clean ':' hcolon
          (hv.append (hsep.append hrest)))).cast (by omega)
end

/-! ## Structural properties of the tree walk -/

mutual
/-- Sanitization is idempotent on trees: a second walk with the same Filter
Set changes nothing (matched keys already hold the token; keys are never
rewritten). -/
theorem sanitize_idem_V (filter : List String) (R : String) (t : JValue) :
    sanitizeValue filter R (sanitizeValue filter R t) =
      sanitizeValue filter R t := by
  cases t with
  | jstr s => rfl
  | jnum n => rfl
  | jbool bv => rfl
  | jnull => rfl
  | jarr xs =>
      show JValue.jarr (sanitizeArray filter R (sanitizeArray filter R xs)) =
        JValue.jarr (sanitizeArray filter R xs)
      rw [sanitize_idem_A filter R xs]
  | jobj fs =>
      show JValue.jobj (sanitizeObject filter R (sanitizeObject filter R fs)) =
        JValue.jobj (sanitizeObject filter R fs)
      rw [sanitize_idem_O filter R fs]

theorem sanitize_idem_A (filter : List String) (R : String) (xs : JArray) :
    sanitizeArray filter R (sanitizeArray filter R xs) =
      sanitizeArray filter R xs := by
  cases xs with
  | anil => rfl
  | acons v rest =>
      show JArray.acons (sanitizeValue filter R (sanitizeValue filter R v))
          (sanitizeArray filter R (sanitizeArray filter R rest)) =
        JArray.acons (sanitizeValue filter R v) (sanitizeArray filter R rest)
      rw [sanitize_idem_V filter R v, sanitize_idem_A filter R rest]

theorem sanitize_idem_O (filter : List String) (R : String) (fs : JObject) :
    sanitizeObject filter R (sanitizeObject filter R fs) =
      sanitizeObject filter R fs := by
  cases fs with
  | onil => rfl
  | ocons k v rest =>
      show JObject.ocons k
          (if keyMatches filter k then JValue.jstr R
           else sanitizeValue filter R
             (if keyMatches filter k then JValue.jstr R
              else sanitizeValue filter R v))
          (sanitizeObject filter R (sanitizeObject filter R rest)) =
        JObject.ocons k
          (if keyMatches filter k then JValue.jstr R
           else sanitizeValue filter R v)
          (sanitizeObject filter R rest)
      by_cases hm : keyMatches filter k = true
      · rw [if_pos hm, if_pos hm, sanitize_idem_O filter R rest]
      · rw [if_neg hm, if_neg hm, sanitize_idem_V filter R v,
          sanitize_idem_O filter R rest]
end

mutual
/-- The sanitized tree satisfies the pointwise preservation relation. -/
theorem preserves_V (filter : List String) (R : String) (t : JValue) :
    PreservesV filter R t (sanitizeValue filter R t) := by
  cases t with
  | jstr s => exact rfl
  | jnum n => exact rfl
  | jbool bv => exact rfl
  | jnull => exact rfl
  | jarr xs => exact preserves_A filter R xs
  | jobj fs => exact preserves_O filter R fs

theorem preserves_A (filter : List String) (R : String) (xs : JArray) :
    PreservesA filter R xs (sanitizeArray filter R xs) := by
  cases xs with
  | anil => exact rfl
  | acons v rest =>
      exact ⟨preserves_V filter R v, preserves_A filter R rest⟩

theorem preserves_O (filter : List String) (R : String) (fs : JObject) :
    PreservesO filter R fs (sanitizeObject filter R fs) := by
  cases fs with
  | onil => exact rfl
  | ocons k v rest =>
      refine ⟨rfl, ?_, preserves_O filter R rest⟩
      by_cases hm : keyMatches filter k = true
      · rw [if_pos hm, if_pos hm]
      · rw [if_neg hm, if_neg hm]
        exact preserves_V filter R v
end

mutual
/-- Erasing every matched key's value commutes sanitization away: outside
matched keys' values, input and output are identical (structure, key order,
all other values). -/
theorem erase_sanitize_V (filter : List String) (R : String) (t : JValue) :
    eraseMatchedV filter (sanitizeValue filter R t) = eraseMatchedV filter t := by
  cases t with
  | jstr s => rfl
  | jnum n => rfl
  | jbool bv => rfl
  | jnull => rfl
  | jarr xs =>
      show JValue.jarr (eraseMatchedA filter (sanitizeArray filter R xs)) = _
      rw [erase_sanitize_A filter R xs]
      rfl
  | jobj fs =>
      show JValue.jobj (eraseMatchedO filter (sanitizeObject filter R fs)) = _
      rw [erase_sanitize_O filter R fs]
      rfl

theorem erase_sanitize_A (filter : List String) (R : String) (xs : JArray) :
    eraseMatchedA filter (sanitizeArray filter R xs) = eraseMatchedA filter xs := by
  cases xs with
  | anil => rfl
  | acons v rest =>
      show JArray.acons (eraseMatchedV filter (sanitizeValue filter R v))
        (eraseMatchedA filter (sanitizeArray filter R rest)) = _
      rw [erase_sanitize_V filter R v, erase_sanitize_A filter R rest]
      rfl

theorem erase_sanitize_O (filter : List String) (R : String) (fs : JObject) :
    eraseMatchedO filter (sanitizeObject filter R fs) = eraseMatchedO filter fs := by
  cases fs with
  | onil => rfl
  | ocons k v rest =>
      show JObject.ocons k
          (if keyMatches filter k then JValue.jnull
           else eraseMatchedV filter
             (if keyMatches filter k then JValue.jstr R
              else sanitizeValue filter R v))
          (eraseMatchedO filter (sanitizeObject filter R rest)) =
        JObject.ocons k
          (if keyMatches filter k then JValue.jnull
           else eraseMatchedV filter v)
          (eraseMatchedO filter rest)
      by_cases hm : keyMatches filter k = true
      · rw [if_pos hm, if_pos hm, erase_sanitize_O filter R rest]
      · rw [if_neg hm, if_neg hm, if_neg hm,
          erase_sanitize_V filter R v, erase_sanitize_O filter R rest]
end

/-- An array of plain scalar strings passes through the array recursion
unchanged. -/
theorem sanitizeArray_id_of_allString (filter : List String) (R : String) :
    ∀ (xs : JArray), allStringElems xs = true → sanitizeArray filter R xs = xs
  | .anil, _ => rfl
  | .acons (.jstr s) rest, h => by
      show JArray.acons (JValue.jstr s) (sanitizeArray filter R rest) =
        JArray.acons (JValue.jstr s) rest
      rw [sanitizeArray_id_of_allString filter R rest h]
  | .acons (.jnum _) _, h => Bool.noConfusion h
  | .acons (.jbool _) _, h => Bool.noConfusion h
  | .acons .jnull _, h => Bool.noConfusion h
  | .acons (.jarr _) _, h => Bool.noConfusion h
  | .acons (.jobj _) _, h => Bool.noConfusion h

/-! ## Multi-pass lemmas for the Literal Redactor -/

/-- A pattern already absent stays absent through every later pass. -/
theorem containsSub_redactPasses_preserved (repl : List Char) (hrepl : repl ≠ [])
    (pat : List Char) (hdisj : ∀ c ∈ pat, c ∉ repl) :
    ∀ (cands : List (List Char)) (acc : List Char × Nat),
      containsSub pat acc.1 = false →
      containsSub pat (redactPasses repl acc cands).1 = false := by
  intro cands
  induction cands with
  | nil => intro acc h; rw [redactPasses]; exact h
  | cons q rest ih =>
      intro acc h
      rw [redactPasses]
      exact ih _ (containsSub_replaceAll_other hrepl hdisj h)

/-- Every non-empty candidate is absent from the final output of the
candidate passes. -/
theorem containsSub_redactPasses_false (repl : List Char) (hrepl : repl ≠ []) :
    ∀ (cands : List (List Char)) (pat : List Char), pat ∈ cands → pat ≠ [] →
      (∀ p ∈ cands, ∀ c ∈ p, c ∉ repl) → ∀ (acc : List Char × Nat),
      containsSub pat (redactPasses repl acc cands).1 = false := by
  intro cands
  induction cands with
  | nil => intro pat hmem; exact absurd hmem (List.not_mem_nil pat)
  | cons q rest ih =>
      intro pat hmem hne hdisj acc
      rw [redactPasses]
      rcases List.mem_cons.1 hmem with rfl | hmem2
      · exact containsSub_redactPasses_preserved repl hrepl pat
          (hdisj pat (List.mem_cons_self pat rest)) rest _
          (containsSub_replaceAll_self hrepl hne
            (hdisj pat (List.mem_cons_self pat rest)))
      · exact ih pat hmem2 hne
          (fun p hp => hdisj p (List.mem_cons_of_mem q hp)) _

/-- The passes keep the output segmented into clean text and exactly as many
token blocks as spans consumed so far. -/
theorem segs_redactPasses (repl : List Char) (hrepl : repl ≠ []) :
    ∀ (cands : List (List Char)),
      (∀ p ∈ cands, ∀ c ∈ p, c ∉ repl) → ∀ (acc : List Char × Nat),
      Segs repl acc.1 acc.2 →
      Segs repl (redactPasses repl acc cands).1 (redactPasses repl acc cands).2 := by
  intro cands
  induction cands with
  | nil => intro _ acc h; rw [redactPasses]; exact h
  | cons q rest ih =>
      intro hdisj acc hs
      rw [redactPasses]
      exact ih (fun p hp => hdisj p (List.mem_cons_of_mem q hp)) _
        (segs_replaceAll hrepl (hdisj q (List.mem_cons_self q rest)) hs)

/-! ## Lemmas for the output workflow -/

namespace OutputWorkflow

theorem prependTrace_ret {t : List Effect} {o : Outcome}
    {out : List DataItem} {err : Option String} {tr : List Effect}
    (h : prependTrace t o = .ret out err tr) :
    ∃ tr0, o = .ret out err tr0 := by
  cases o with
  | ret o2 e2 t2 =>
      unfold prependTrace at h
      injection h with h1 h2 h3
      exact ⟨t2, by rw [h1, h2]⟩
  | panicked t2 =>
      unfold prependTrace at h
      cases h

/-- Whenever the loop returns normally, the returned output list is the
empty list the Go function initialized and never appends to. -/
theorem processItems_output_empty (writeJsonToFile : String) :
    ∀ (input : List DataItem) (printJsonToCmd : Bool) (out : List DataItem)
      (err : Option String) (tr : List Effect),
      processItems printJsonToCmd writeJsonToFile input =
        Outcome.ret out err tr → out = [] := by
  intro input
  induction input with
  | nil =>
      intro pj out err tr h
      rw [processItems] at h
      injection h with h1 h2 h3
      exact h1.symm
  | cons d rest ih =>
      intro pj out err tr h
      rw [processItems] at h
      split at h
      · split at h
        · obtain ⟨tr0, h2⟩ := prependTrace_ret h
          exact ih _ out err tr0 h2
        · cases h
      · split at h
        · obtain ⟨tr0, h2⟩ := prependTrace_ret h
          exact ih _ out err tr0 h2
        · obtain ⟨tr0, h2⟩ := prependTrace_ret h
          exact ih _ out err tr0 h2
        · injection h with h1 h2 h3
          exact h1.symm

end OutputWorkflow

/-! ## Claim theorems -/

/-- C1 (counterexample): the claim as stated fails — with filter
`["password"]` and token `"***"`, the payload
`\x7b"password":\x7b"password":"x"\x7d\x7d` has two keys matching at some
nesting depth, but the output holds only one Replacement Token, because the
walk replaces the outer matched value wholesale and never visits the inner
key. -/
theorem C1_counterexample :
    countOcc "***".toList
        (serializeV (sanitizeValue ["password"] "***" nestedMatchedInput)) ≠
      matchedKeysAnyDepthV ["password"] nestedMatchedInput := by
  decide

/-- C1 (amended): the number of Replacement Token occurrences in the output
of the Structural Redactor equals the number of matched keys that are not
nested inside another matched key's value, provided the token is non-empty,
contains neither a quote nor a backslash, and no character of the token
occurs in the serialized input. -/
theorem C1_token_count_amended (filter : List String) (R : String)
    (t : JValue) (hne : R.toList ≠ []) (hq : '"' ∉ R.toList)
    (hb : '\\' ∉ R.toList) (hdisj : ∀ c ∈ R.toList, c ∉ serializeV t) :
    countOcc R.toList (serializeV (sanitizeValue filter R t)) =
      matchedCountV filter t :=
  countOcc_segs hne (segsSerializeV filter R t hne hq hb hdisj)

theorem C1_token_count_amended_witness :
    countOcc "***".toList
        (serializeV (sanitizeValue ["password"] "***" scenarioInput)) =
      matchedCountV ["password"] scenarioInput :=
  C1_token_count_amended ["password"] "***" scenarioInput
    (by decide) (by decide) (by decide) (by decide)

/-- C2 (counterexample): the claim as stated fails — with filter
`["password"]`, the payload `\x7b"password":"x","Other":"x"\x7d` stores the
matched value `"x"` also under the non-matching key `Other`, so `x` is
still a substring of the output bytes. -/
theorem C2_counterexample :
    containsSub "x".toList
      (serializeV (sanitizeValue ["password"] "***" duplicatedValueInput)) =
      true := by
  decide

/-- C2 (amended): after the Structural Redactor runs, every matched key
holds exactly the Replacement Token — its original value is gone from that
position — and every scalar value under a non-matching key, every key, and
the whole structure are preserved byte-identical; a matched value may still
appear elsewhere in the output when it also occurs under a non-matching key
or inside a key name. -/
theorem C2_matched_replaced_amended (filter : List String) (R : String)
    (t : JValue) : PreservesV filter R t (sanitizeValue filter R t) :=
  preserves_V filter R t

/-- C4: the decoded output differs from the input only at matched keys'
values — erasing every matched key's value on both sides yields identical
trees, so all non-matched structure, key order and non-sensitive values are
preserved — and the §8 scenario holds exactly:
`\x7b"password":"#er+aVnqOjnyTtzn-snyk","Other":"public"\x7d` with filter
`["password"]` and token `"***"` serializes to
`\x7b"password":"***","Other":"public"\x7d`. -/
theorem C4_frame_preservation :
    (∀ (filter : List String) (R : String) (t : JValue),
      eraseMatchedV filter (sanitizeValue filter R t) =
        eraseMatchedV filter t) ∧
    serializeV (sanitizeValue ["password"] "***" scenarioInput) =
      "\x7b\"password\":\"***\",\"Other\":\"public\"\x7d".toList :=
  ⟨erase_sanitize_V, by decide⟩

/-- C5: an array value under a non-matching key whose elements are all
plain scalar strings passes through the Structural Redactor entirely
unchanged, and under a matched key the whole value — array or not — is
replaced by the Replacement Token as one piece, never element-by-element. -/
theorem C5_scalar_string_arrays (filter : List String) (R : String)
    (k : String) (xs : JArray) (rest : JObject)
    (hk : keyMatches filter k = false) (hall : allStringElems xs = true) :
    sanitizeObject filter R (.ocons k (.jarr xs) rest) =
      .ocons k (.jarr xs) (sanitizeObject filter R rest) ∧
    (∀ (k2 : String) (v2 : JValue) (rest2 : JObject),
      keyMatches filter k2 = true →
      sanitizeObject filter R (.ocons k2 v2 rest2) =
        .ocons k2 (.jstr R) (sanitizeObject filter R rest2)) := by
  constructor
  · show JObject.ocons k
        (if keyMatches filter k then JValue.jstr R
         else sanitizeValue filter R (JValue.jarr xs))
        (sanitizeObject filter R rest) =
      JObject.ocons k (JValue.jarr xs) (sanitizeObject filter R rest)
    rw [if_neg (by simp [hk])]
    show JObject.ocons k (JValue.jarr (sanitizeArray filter R xs))
        (sanitizeObject filter R rest) =
      JObject.ocons k (JValue.jarr xs) (sanitizeObject filter R rest)
    rw [sanitizeArray_id_of_allString filter R xs hall]
  · intro k2 v2 rest2 hk2
    show JObject.ocons k2
        (if keyMatches filter k2 then JValue.jstr R
         else sanitizeValue filter R v2)
        (sanitizeObject filter R rest2) =
      JObject.ocons k2 (JValue.jstr R) (sanitizeObject filter R rest2)
    rw [if_pos hk2]

theorem C5_scalar_string_arrays_witness :
    sanitizeObject ["password"] "***"
        (.ocons "Args" (.jarr (.acons (.jstr "tok") .anil)) .onil) =
      .ocons "Args" (.jarr (.acons (.jstr "tok") .anil))
        (sanitizeObject ["password"] "***" .onil) ∧
    (∀ (k2 : String) (v2 : JValue) (rest2 : JObject),
      keyMatches ["password"] k2 = true →
      sanitizeObject ["password"] "***" (.ocons k2 v2 rest2) =
        .ocons k2 (.jstr "***") (sanitizeObject ["password"] "***" rest2)) :=
  C5_scalar_string_arrays ["password"] "***" "Args"
    (.acons (.jstr "tok") .anil) .onil (by decide) (by decide)

/-- C9: the Structural Redactor is idempotent — re-applying the walk with
the same Filter Set to already-sanitized output changes nothing, so no
additional replacements are produced and the re-serialized bytes are
unchanged. -/
theorem C9_redact_idempotent (filter : List String) (R : String)
    (t : JValue) :
    sanitizeValue filter R (sanitizeValue filter R t) =
      sanitizeValue filter R t ∧
    serializeV (sanitizeValue filter R (sanitizeValue filter R t)) =
      serializeV (sanitizeValue filter R t) :=
  ⟨sanitize_idem_V filter R t, by rw [sanitize_idem_V filter R t]⟩

/-- C3 (counterexample): the claim as stated fails — with the empty
Replacement Token, raw username `d\ab` (domain `d`, bare `ab`), home
directory `zzz` and payload `d\aabb`, the final bare-username pass rewrites
`d\aabb` into `d\ab`, so the output still contains the raw username. -/
theorem C3_counterexample :
    containsSub "d\\ab".toList
      (SanitizeUsername "d\\ab" "zzz" "" ("d\\aabb".toList)) = true := by
  decide

/-- C3 (amended): provided the Replacement Token is non-empty, shares no
character with the payload, and shares no character with any candidate, and
the raw username, home directory and bare username are non-empty, the
output of the Literal Redactor contains no occurrence of the raw username,
of the home directory in either separator convention, or of the bare
username, and contains exactly as many Replacement Tokens as distinct
occurrence-spans were consumed across the candidate passes. -/
theorem C3_identity_redaction_amended
    (rawUserName homeDir replacement : String) (payload : List Char)
    (hrepl : replacement.toList ≠ [])
    (hclean : ∀ c ∈ replacement.toList, c ∉ payload)
    (hraw : rawUserName.toList ≠ [])
    (hhome : homeDir.toList ≠ [])
    (hbare : (bareUsername rawUserName).toList ≠ [])
    (hdisj : ∀ p ∈ identityCandidates rawUserName homeDir,
      ∀ c ∈ p, c ∉ replacement.toList) :
    containsSub rawUserName.toList
        (SanitizeUsername rawUserName homeDir replacement payload) = false ∧
    containsSub homeDir.toList
        (SanitizeUsername rawUserName homeDir replacement payload) = false ∧
    containsSub (swapSeparators homeDir).toList
        (SanitizeUsername rawUserName homeDir replacement payload) = false ∧
    containsSub (bareUsername rawUserName).toList
        (SanitizeUsername rawUserName homeDir replacement payload) = false ∧
    countOcc replacement.toList
        (SanitizeUsername rawUserName homeDir replacement payload) =
      sanitizeUsernameCount rawUserName homeDir replacement payload := by
  have hswap : (swapSeparators homeDir).toList ≠ [] := by
    intro h
    have h2 : homeDir.toList.map (fun c =>
        if c = '\\' then '/' else if c = '/' then '\\' else c) = [] := h
    exact hhome (List.map_eq_nil_iff.1 h2)
  have hm1 : rawUserName.toList ∈ identityCandidates rawUserName homeDir := by
    simp [identityCandidates]
  have hm2 : homeDir.toList ∈ identityCandidates rawUserName homeDir := by
    simp [identityCandidates]
  have hm3 : (swapSeparators homeDir).toList ∈
      identityCandidates rawUserName homeDir := by
    simp [identityCandidates]
  have hm4 : (bareUsername rawUserName).toList ∈
      identityCandidates rawUserName homeDir := by
    simp [identityCandidates]
  have hout : SanitizeUsername rawUserName homeDir replacement payload =
      (redactPasses replacement.toList (payload, 0)
        (identityCandidates rawUserName homeDir)).1 := rfl
  have hcnt : sanitizeUsernameCount rawUserName homeDir replacement payload =
      (redactPasses replacement.toList (payload, 0)
        (identityCandidates rawUserName homeDir)).2 := rfl
  refine ⟨?_, ?_, ?_, ?_, ?_⟩
  · rw [hout]
    exact containsSub_redactPasses_false _ hrepl _ _ hm1 hraw hdisj _
  · rw [hout]
    exact containsSub_redactPasses_false _ hrepl _ _ hm2 hhome hdisj _
  · rw [hout]
    exact containsSub_redactPasses_false _ hrepl _ _ hm3 hswap hdisj _
  · rw [hout]
    exact containsSub_redactPasses_false _ hrepl _ _ hm4 hbare hdisj _
  · rw [hout, hcnt]
    exact countOcc_segs hrepl (segs_redactPasses _ hrepl _ hdisj _
      (Segs.of_clean (flip_disjoint hclean)))

theorem C3_identity_redaction_amended_witness :
    containsSub "dom\\bob".toList
        (SanitizeUsername "dom\\bob" "/h/bob" "REDACTED"
          ("go /h/bob or dom\\bob now".toList)) = false ∧
    containsSub "/h/bob".toList
        (SanitizeUsername "dom\\bob" "/h/bob" "REDACTED"
          ("go /h/bob or dom\\bob now".toList)) = false ∧
    containsSub (swapSeparators "/h/bob").toList
        (SanitizeUsername "dom\\bob" "/h/bob" "REDACTED"
          ("go /h/bob or dom\\bob now".toList)) = false ∧
    containsSub (bareUsername "dom\\bob").toList
        (SanitizeUsername "dom\\bob" "/h/bob" "REDACTED"
          ("go /h/bob or dom\\bob now".toList)) = false ∧
    countOcc "REDACTED".toList
        (SanitizeUsername "dom\\bob" "/h/bob" "REDACTED"
          ("go /h/bob or dom\\bob now".toList)) =
      sanitizeUsernameCount "dom\\bob" "/h/bob" "REDACTED"
        ("go /h/bob or dom\\bob now".toList) :=
  C3_identity_redaction_amended "dom\\bob" "/h/bob" "REDACTED"
    ("go /h/bob or dom\\bob now".toList)
    (by decide) (by decide) (by decide) (by decide) (by decide) (by decide)

set_option maxRecDepth 16384 in
/-- C6 (divergence): evaluating the spec-modelled Structural Redactor at
the `Test_SanitizeValuesByKey` input with the built-in Filter Set and
Replacement Token produces four Replacement Token occurrences — the four
matched struct keys — not the seven the test asserts, and the four secrets
embedded inside the command-argument strings survive in the output, while
the three secrets stored directly under matched keys are gone.  The §4.1
algorithm cannot redact values inside an array whose containing key does
not match. -/
theorem C6_test_scenario_evaluation :
    countOcc sanitize_replacement_string.toList testOutput = 4 ∧
    countOcc sanitize_replacement_string.toList testOutput ≠ 7 ∧
    containsSub "Patch".toList testOutput = true ∧
    containsSub "DogsRule".toList testOutput = true ∧
    containsSub "CatsDont".toList testOutput = true ∧
    containsSub "MiceAreOk".toList testOutput = true ∧
    containsSub "#er+aVnqOjnyTtzn-snyk".toList testOutput = false ∧
    containsSub "mypassword".toList testOutput = false ∧
    containsSub "123".toList testOutput = false := by
  decide

/-- C7 (counterexample): the claim as stated fails — when the Replacement
Token `X` already occurs in the payload, the output holds one token
occurrence although no occurrence-span was consumed. -/
theorem C7_counterexample :
    countOcc "X".toList (SanitizeUsername "u" "h" "X" ("X".toList)) ≠
      sanitizeUsernameCount "u" "h" "X" ("X".toList) := by
  decide

/-- C7 (amended): provided the Replacement Token is non-empty, shares no
character with the payload and none with any candidate, the output of the
Literal Redactor decomposes into characters foreign to the token and
exactly one verbatim token block per occurrence-span consumed — overlapping
candidates never replace the same characters twice, since each pass scans
left-to-right without overlap and consumed spans contain no candidate
characters afterwards — and the token count of the output equals the
number of spans consumed. -/
theorem C7_single_token_per_span_amended
    (rawUserName homeDir replacement : String) (payload : List Char)
    (hrepl : replacement.toList ≠ [])
    (hclean : ∀ c ∈ replacement.toList, c ∉ payload)
    (hdisj : ∀ p ∈ identityCandidates rawUserName homeDir,
      ∀ c ∈ p, c ∉ replacement.toList) :
    Segs replacement.toList
        (SanitizeUsername rawUserName homeDir replacement payload)
        (sanitizeUsernameCount rawUserName homeDir replacement payload) ∧
    countOcc replacement.toList
        (SanitizeUsername rawUserName homeDir replacement payload) =
      sanitizeUsernameCount rawUserName homeDir replacement payload := by
  have hsegs := segs_redactPasses _ hrepl _ hdisj (payload, 0)
    (Segs.of_clean (flip_disjoint hclean))
  exact ⟨hsegs, countOcc_segs hrepl hsegs⟩

theorem C7_single_token_per_span_amended_witness :
    Segs "XX".toList (SanitizeUsername "al" "/u/al" "XX" ("see /u/al here".toList))
        (sanitizeUsernameCount "al" "/u/al" "XX" ("see /u/al here".toList)) ∧
    countOcc "XX".toList
        (SanitizeUsername "al" "/u/al" "XX" ("see /u/al here".toList)) =
      sanitizeUsernameCount "al" "/u/al" "XX" ("see /u/al here".toList) :=
  C7_single_token_per_span_amended "al" "/u/al" "XX" ("see /u/al here".toList)
    (by decide) (by decide) (by decide)

/-- C8: the Structural Redactor pipeline fails with `DecodeError` exactly
when the payload does not decode as JSON, and returns no output in that
case; when it succeeds, the returned bytes are the complete re-serialized
sanitized tree of the decoded payload — there is no partial output, and the
total function never panics. -/
theorem C8_decode_error_channel (filter : List String) (R : String)
    (payload : List Char) :
    (parseJson payload = none →
      SanitizeValuesByKey filter R payload =
        Except.error SanitizeError.decodeError) ∧
    (∀ out, SanitizeValuesByKey filter R payload = Except.ok out →
      ∃ t, parseJson payload = some t ∧
        out = serializeV (sanitizeValue filter R t)) := by
  constructor
  · intro h
    unfold SanitizeValuesByKey
    rw [h]
  · intro out hout
    unfold SanitizeValuesByKey at hout
    cases hp : parseJson payload with
    | none => rw [hp] at hout; cases hout
    | some t =>
        rw [hp] at hout
        exact ⟨t, rfl, (Except.ok.inj hout).symm⟩

theorem C8_decode_error_channel_witness :
    (parseJson ("not json".toList) = none ∧
      SanitizeValuesByKey ["password"] "***" ("not json".toList) =
        Except.error SanitizeError.decodeError) ∧
    (∃ t, parseJson ("\x7b\"a\":2\x7d".toList) = some t ∧
      "\x7b\"a\":2\x7d".toList =
        serializeV (sanitizeValue ["password"] "***" t)) :=
  ⟨⟨rfl,
    (C8_decode_error_channel ["password"] "***" ("not json".toList)).1
      rfl⟩,
    (C8_decode_error_channel ["password"] "***"
      ("\x7b\"a\":2\x7d".toList)).2 ("\x7b\"a\":2\x7d".toList) (by rfl)⟩

/-- C10: when `outputWorkflowEntryPoint` reaches an item whose content type
does not contain `json` and whose payload is neither a byte slice nor a
string, it returns the error `Unsupported output type: <mimeType>` with the
empty output list and performs no further effects — the remaining items are
never processed; and in every normally-returning run, on any input, the
returned output list is empty. -/
theorem C10_unsupported_output_type (printJsonToCmd : Bool)
    (writeJsonToFile : String) (d : OutputWorkflow.DataItem)
    (rest input : List OutputWorkflow.DataItem)
    (hnotjson : containsSub ('j' :: 's' :: 'o' :: 'n' :: [])
      d.contentType.toList = false)
    (hother : d.payload = OutputWorkflow.Payload.other) :
    OutputWorkflow.outputWorkflowEntryPoint printJsonToCmd writeJsonToFile
        (d :: rest) =
      OutputWorkflow.Outcome.ret []
        (some ("Unsupported output type: " ++ d.contentType)) [] ∧
    (∀ out err tr,
      OutputWorkflow.outputWorkflowEntryPoint printJsonToCmd writeJsonToFile
          input = OutputWorkflow.Outcome.ret out err tr → out = []) := by
  constructor
  · show OutputWorkflow.processItems printJsonToCmd writeJsonToFile
        (d :: rest) = _
    have hnj : ¬(containsSub ('j' :: 's' :: 'o' :: 'n' :: [])
        d.contentType.toList = true) := by
      rw [hnotjson]
      exact Bool.false_ne_true
    rw [OutputWorkflow.processItems, if_neg hnj, hother]
  · intro out err tr h
    exact OutputWorkflow.processItems_output_empty writeJsonToFile input
      printJsonToCmd out err tr h

theorem C10_unsupported_output_type_witness :
    OutputWorkflow.outputWorkflowEntryPoint false ""
        (OutputWorkflow.DataItem.mk "application/xml"
          OutputWorkflow.Payload.other :: []) =
      OutputWorkflow.Outcome.ret []
        (some ("Unsupported output type: " ++ "application/xml")) [] ∧
    (∀ out err tr,
      OutputWorkflow.outputWorkflowEntryPoint false "" [] =
        OutputWorkflow.Outcome.ret out err tr → out = []) :=
  C10_unsupported_output_type false ""
    (OutputWorkflow.DataItem.mk "application/xml" OutputWorkflow.Payload.other)
    [] [] (by decide) rfl
